import Mathlib

/-!
Verification of the cloud-counting program (`src/main.rs`).

The program decodes a four-opcode stack-machine program from text, runs it once
per cell of the fixed 30×30×30 coordinate space, sums the results (the
calibration number), marks cells with strictly positive result as active, and
counts maximal 6-connected groups of active cells (clouds) with a recursive
flood fill.

Shallow embedding conventions:
* Rust `i32` values are modelled as `Int` (no arithmetic here approaches the
  `i32` range: coordinates stay in `[0,30)` and stack values are sums of
  inputs bounded by the program text).
* The two `[[[bool; 30]; 30]; 30]` grids are modelled as `Finset Point`: both
  start all-`false` (`∅`) and are only ever written with `true` (`insert`);
  reading a cell is membership.
* The recursive flood fill `grow_cloud` is embedded with an explicit `fuel`
  argument that bounds the depth of nested recursive calls; every call made by
  the program has at most 27000 unconsidered in-range points, and the
  specification lemmas below show `fuel = 27001` always suffices (their only
  fuel hypothesis is `(box \ considered).card < fuel`).
* Failures (`unwrap` panics, out-of-bounds indexing) are modelled with
  `Option` / explicit failure constructors.
-/

/-- A 3D point with signed integer coordinates (`struct Point` in the source). -/
structure Point where
  x : Int
  y : Int
  z : Int
deriving DecidableEq, Repr

/-- Bounded point addition, `impl Add for Point`: componentwise sum, `none`
(Rust `None`) when any component of the sum leaves `[0, 30)`. -/
def Point.add (a b : Point) : Option Point :=
  let np : Point := ⟨b.x + a.x, b.y + a.y, b.z + a.z⟩
  if np.x < 0 ∨ 30 ≤ np.x then none
  else if np.y < 0 ∨ 30 ≤ np.y then none
  else if np.z < 0 ∨ 30 ≤ np.z then none
  else some np

/-- The six face-adjacent unit offsets (`const CARDINALS` in the source). -/
def CARDINALS : List Point :=
  [⟨1, 0, 0⟩, ⟨-1, 0, 0⟩, ⟨0, 1, 0⟩, ⟨0, -1, 0⟩, ⟨0, 0, 1⟩, ⟨0, 0, -1⟩]

/-- The 27000 valid grid coordinates: each component in `[0, 30)`. -/
def box : Finset Point :=
  (Finset.range 30 ×ˢ Finset.range 30 ×ˢ Finset.range 30).image
    fun t : ℕ × ℕ × ℕ => ⟨(t.1 : Int), (t.2.1 : Int), (t.2.2 : Int)⟩

/-- The iteration order of both top-level loops in `main`: `x`, then `y`, then
`z`, each running over `0..30`. -/
def pointsList : List Point :=
  (List.range 30).flatMap fun x : ℕ =>
    (List.range 30).flatMap fun y : ℕ =>
      (List.range 30).map fun z : ℕ => ⟨(x : Int), (y : Int), (z : Int)⟩

/-- Operand of a `push` (`enum Value` in the source): one of the three axes of
the current evaluation point, or an integer literal. -/
inductive Value where
  | x
  | y
  | z
  | num (v : Int)
deriving DecidableEq, Repr

/-- The four opcodes (`enum Instruction` in the source). -/
inductive Instruction where
  | push (v : Value)
  | add
  | jmpos (v : Int)
  | ret
deriving DecidableEq, Repr

/-- Rust `char::to_ascii_lowercase`: lowercases `A..Z` only. -/
def asciiLowerChar (c : Char) : Char :=
  if 'A' ≤ c ∧ c ≤ 'Z' then Char.ofNat (c.toNat + 32) else c

/-- Rust `str::to_ascii_lowercase`. -/
def asciiLower (s : String) : String :=
  ⟨s.data.map asciiLowerChar⟩

/-- Rust `str::split(' ')` on the underlying characters: tokens between single
spaces, keeping empty tokens; always returns at least one token. -/
def splitChars : List Char → List (List Char)
  | [] => [[]]
  | c :: cs =>
    if c = ' ' then [] :: splitChars cs
    else
      match splitChars cs with
      | t :: ts => (c :: t) :: ts
      | [] => [[c]]

def digitVal (c : Char) : Option Nat :=
  if '0' ≤ c ∧ c ≤ '9' then some (c.toNat - 48) else none

def digitsValAux : Nat → List Char → Option Nat
  | acc, [] => some acc
  | acc, c :: cs =>
    match digitVal c with
    | some d => digitsValAux (acc * 10 + d) cs
    | none => none

/-- Value of a nonempty, all-digit character run; `none` otherwise. -/
def digitsVal : List Char → Option Nat
  | [] => none
  | c :: cs => digitsValAux 0 (c :: cs)

/-- Rust `str::parse::<i32>`: an optional sign followed by a nonempty digit
run whose signed value fits in `i32`. -/
def parse_i32 (s : String) : Option Int :=
  match s.data with
  | '+' :: cs => (digitsVal cs).bind fun n : ℕ =>
      if n ≤ 2147483647 then some (n : Int) else none
  | '-' :: cs => (digitsVal cs).bind fun n : ℕ =>
      if n ≤ 2147483648 then some (-(n : Int)) else none
  | cs => (digitsVal cs).bind fun n : ℕ =>
      if n ≤ 2147483647 then some (n : Int) else none

/-- The body of `Instruction::from_str` applied to the token iterator produced
by `split(' ')`; `none` models the `unwrap`/`panic!` failure paths. -/
def decodeTokens : List String → Option Instruction
  | [] => none
  | op :: rest =>
    if op = "push" then
      match rest with
      | [] => none
      | t :: _ =>
        if asciiLower t = "x" then some (.push .x)
        else if asciiLower t = "y" then some (.push .y)
        else if asciiLower t = "z" then some (.push .z)
        else
          match parse_i32 t with
          | some n => some (.push (.num n))
          | none => none
    else if op = "add" then some .add
    else if op = "jmpos" then
      match rest with
      | [] => none
      | t :: _ =>
        match parse_i32 t with
        | some n => some (.jmpos n)
        | none => none
    else if op = "ret" then some .ret
    else none

/-- `Instruction::from_str`: split the line on single spaces, then decode. -/
def Instruction.from_str (s : String) : Option Instruction :=
  decodeTokens ((splitChars s.data).map List.asString)

/-- One-step outcome of the interpreter loop in `run_program`. -/
inductive StepResult where
  | cont (pc : Int) (stack : List Int)
  | done (v : Int)
  | fault
deriving DecidableEq, Repr

/-- Fetching `program[pc as usize]`: `none` models the index panic (a negative
`pc` cast to `usize` is astronomically large, hence also out of bounds). -/
def fetch (program : List Instruction) (pc : Int) : Option Instruction :=
  if h : 0 ≤ pc ∧ pc.toNat < program.length then some (program.get ⟨pc.toNat, h.2⟩) else none

/-- Reading a push operand against the current point. -/
def Value.read (v : Value) (point : Point) : Int :=
  match v with
  | .x => point.x
  | .y => point.y
  | .z => point.z
  | .num n => n

/-- One iteration of the `loop` in `run_program`, with the trailing `pc += 1`
folded into the reported counter (net effect). -/
def step (program : List Instruction) (point : Point) (pc : Int) (stack : List Int) :
    StepResult :=
  match fetch program pc with
  | none => .fault
  | some (.push v) => .cont (pc + 1) (Value.read v point :: stack)
  | some .add =>
    match stack with
    | a :: b :: rest => .cont (pc + 1) ((a + b) :: rest)
    | _ => .fault
  | some (.jmpos v) =>
    match stack with
    | a :: rest => .cont (if 0 ≤ a then pc + v + 1 else pc + 1) rest
    | [] => .fault
  | some .ret =>
    match stack with
    | a :: _ => .done a
    | [] => .fault

/-- Final outcome of one machine run. -/
inductive RunResult where
  | ok (v : Int)
  | fault
  | timeout
deriving DecidableEq, Repr

/-- `run_program`, iterated for at most `fuel` steps (the Rust loop has no
step limit; `timeout` marks runs that have not finished within `fuel`). -/
def run_program (program : List Instruction) (point : Point) :
    Nat → Int → List Int → RunResult
  | 0, _, _ => .timeout
  | fuel + 1, pc, stack =>
    match step program point pc stack with
    | .cont pc2 stack2 => run_program program point fuel pc2 stack2
    | .done v => .ok v
    | .fault => .fault

/-- The machine run performed for one grid cell: counter `0`, empty stack. -/
def cellValue (program : List Instruction) (fuel : Nat) (p : Point) : RunResult :=
  run_program program p fuel 0 []

/-- The grid-evaluation loop of `main`: run the machine on each point in
order, add each result to the calibration total, and insert cells with
strictly positive result into the active grid. `none` models a panic inside
`run_program` (the Rust program aborts). -/
def evalLoop (program : List Instruction) (fuel : Nat) :
    List Point → Int → Finset Point → Option (Int × Finset Point)
  | [], cal, act => some (cal, act)
  | p :: rest, cal, act =>
    match cellValue program fuel p with
    | .ok v => evalLoop program fuel rest (cal + v) (if 0 < v then insert p act else act)
    | _ => none

/-- The whole grid-evaluation phase of `main`. -/
def evalGrid (program : List Instruction) (fuel : Nat) : Option (Int × Finset Point) :=
  evalLoop program fuel pointsList 0 ∅

/-- Face adjacency exactly as the cloud counter tests it: one `CARDINALS`
offset away through the bounds-checked addition (so the target is in the box). -/
def adj (s q : Point) : Prop := ∃ o ∈ CARDINALS, Point.add s o = some q

instance (s q : Point) : Decidable (adj s q) := by
  unfold adj
  infer_instance

/-- Both endpoints active and face-adjacent: the edge relation of the cloud
graph on an active grid. -/
def relA (grid : Finset Point) (s q : Point) : Prop :=
  s ∈ grid ∧ q ∈ grid ∧ adj s q

/-- Connectivity inside the active grid: reflexive-transitive closure of
active face-adjacency. -/
def Reach (grid : Finset Point) : Point → Point → Prop :=
  Relation.ReflTransGen (relA grid)

/-- One expansion step of the connectivity closure inside `grid`. -/
def expandNbrs (grid S : Finset Point) : Finset Point :=
  S ∪ grid.filter fun q => ∃ s ∈ S, adj s q

/-- The connected component of `p` inside `grid`, computed by iterating
neighbor expansion until the guaranteed fixpoint. -/
def compF (grid : Finset Point) (p : Point) : Finset Point :=
  (expandNbrs grid)^[grid.card] (if p ∈ grid then {p} else ∅)

/-- Depth fuel for the flood fill: strictly more than the 27000 box points,
hence more than the deepest possible chain of nested `grow_cloud` calls. -/
def FUEL : ℕ := 27001

mutual
/-- The recursive flood fill `grow_cloud` of the source. Every caller (the
top-level loop in `main`, and the recursive call site) marks `point` as
considered before calling. Returns the updated considered grid together with
the list of points included in the cloud (`included` in the source). The
`fuel` argument only bounds the depth of nested recursive calls; the
specification lemmas below show that `FUEL` always suffices. -/
def grow_cloud (grid : Finset Point) : ℕ → Finset Point → Point → Finset Point × List Point
  | 0, considered, _ => (considered, [])
  | fuel + 1, considered, point =>
    if point ∈ grid then
      let r := grow_loop grid fuel considered point CARDINALS
      (r.1, point :: r.2)
    else (considered, [])
termination_by fuel considered point => (fuel, 0)

/-- The `for offset in CARDINALS` loop inside `grow_cloud`: each in-range,
not-yet-considered neighbor is marked considered, and active neighbors are
recursively grown into the same cloud. -/
def grow_loop (grid : Finset Point) : ℕ → Finset Point → Point → List Point →
    Finset Point × List Point
  | _, considered, _, [] => (considered, [])
  | fuel, considered, point, offset :: rest =>
    match Point.add point offset with
    | none => grow_loop grid fuel considered point rest
    | some np =>
      if np ∈ considered then grow_loop grid fuel considered point rest
      else
        if np ∈ grid then
          let r := grow_cloud grid fuel (insert np considered) np
          let r2 := grow_loop grid fuel r.1 point rest
          (r2.1, r.2 ++ r2.2)
        else grow_loop grid fuel (insert np considered) point rest
termination_by fuel considered point offsets => (fuel, offsets.length + 1)
end

/-- The cloud-counting loop of `main`, abstracted over the flood-fill routine
(so the counting argument can be shared with the skip-if-active-only variant):
skip considered points, mark the current point considered, grow its cloud,
and count it when the resulting cloud is nonempty. -/
def count_clouds_loop (grow : Finset Point → Point → Finset Point × List Point) :
    List Point → Finset Point → ℕ → ℕ
  | [], _, clouds => clouds
  | p :: rest, considered, clouds =>
    if p ∈ considered then count_clouds_loop grow rest considered clouds
    else
      let r := grow (insert p considered) p
      count_clouds_loop grow rest r.1 (if r.2 = [] then clouds else clouds + 1)

/-- The cloud-counting phase of `main`. -/
def count_clouds (grid : Finset Point) : ℕ :=
  count_clouds_loop (grow_cloud grid FUEL) pointsList ∅ 0

/-- Postcondition of one full `grow_cloud` call from considered grid `C` at an
active, already-considered point `p`. -/
def CloudConcl (grid C : Finset Point) (p : Point) (out : Finset Point × List Point) : Prop :=
  (C ⊆ out.1 ∧ out.1 ⊆ box) ∧
  (∀ q, q ∈ out.2 ↔ (q = p ∨ (q ∈ grid ∧ q ∈ out.1 ∧ q ∉ C))) ∧
  (∀ s ∈ out.2, ∀ q, q ∈ grid → adj s q → q ∈ out.1) ∧
  (∀ q ∈ out.2, Reach grid p q)

/-- Postcondition of the offset loop with remaining offsets `os`. -/
def LoopConcl (grid C : Finset Point) (p : Point) (os : List Point)
    (out : Finset Point × List Point) : Prop :=
  (C ⊆ out.1 ∧ out.1 ⊆ box) ∧
  (∀ q, q ∈ out.2 ↔ (q ∈ grid ∧ q ∈ out.1 ∧ q ∉ C)) ∧
  (∀ s ∈ out.2, ∀ q, q ∈ grid → adj s q → q ∈ out.1) ∧
  (∀ o ∈ os, ∀ q, Point.add p o = some q → q ∈ grid → q ∈ out.1) ∧
  (∀ q ∈ out.2, Reach grid p q)

/-- The flood-fill contract used by the shared counting argument, for a
routine `grow` that the top-level loop calls as `grow (insert p C) p`. -/
structure GrowSpec (grid : Finset Point)
    (grow : Finset Point → Point → Finset Point × List Point) : Prop where
  inact : ∀ C p, p ∉ grid → grow C p = (C, [])
  mono : ∀ C p, C ⊆ box → p ∈ C → p ∈ grid → C ⊆ (grow C p).1
  inbox : ∀ C p, C ⊆ box → p ∈ C → p ∈ grid → (grow C p).1 ⊆ box
  mem_snd : ∀ C p, C ⊆ box → p ∈ C → p ∈ grid →
    ∀ q, q ∈ (grow C p).2 ↔ (q = p ∨ (q ∈ grid ∧ q ∈ (grow C p).1 ∧ q ∉ C))
  closed : ∀ C p, C ⊆ box → p ∈ C → p ∈ grid →
    ∀ s ∈ (grow C p).2, ∀ q, q ∈ grid → adj s q → q ∈ (grow C p).1
  reaches : ∀ C p, C ⊆ box → p ∈ C → p ∈ grid → ∀ q ∈ (grow C p).2, Reach grid p q

mutual
/-- Modelled from the spec: the skip-if-active-only flood-fill variant named
by claim C5 — identical to `grow_cloud` except that an inactive neighbor is
left unmarked (only active neighbors are marked considered and recursed into). -/
def grow_cloud_skip (grid : Finset Point) : ℕ → Finset Point → Point → Finset Point × List Point
  | 0, considered, _ => (considered, [])
  | fuel + 1, considered, point =>
    if point ∈ grid then
      let r := grow_loop_skip grid fuel considered point CARDINALS
      (r.1, point :: r.2)
    else (considered, [])
termination_by fuel considered point => (fuel, 0)

/-- Offset loop of the skip-if-active-only variant. -/
def grow_loop_skip (grid : Finset Point) : ℕ → Finset Point → Point → List Point →
    Finset Point × List Point
  | _, considered, _, [] => (considered, [])
  | fuel, considered, point, offset :: rest =>
    match Point.add point offset with
    | none => grow_loop_skip grid fuel considered point rest
    | some np =>
      if np ∈ considered then grow_loop_skip grid fuel considered point rest
      else
        if np ∈ grid then
          let r := grow_cloud_skip grid fuel (insert np considered) np
          let r2 := grow_loop_skip grid fuel r.1 point rest
          (r2.1, r.2 ++ r2.2)
        else grow_loop_skip grid fuel considered point rest
termination_by fuel considered point offsets => (fuel, offsets.length + 1)
end

/-- The cloud-counting phase with the variant flood fill. -/
def count_clouds_skip (grid : Finset Point) : ℕ :=
  count_clouds_loop (grow_cloud_skip grid FUEL) pointsList ∅ 0

/-- The specified cloud count: the number of distinct connected components
among the active cells. -/
def numClouds (grid : Finset Point) : ℕ := (grid.image (compF grid)).card

/-- Observable events of `main`, in program order: completion of the two
phases, and the two `println!` calls. -/
inductive Event where
  | gridPhaseDone
  | printed (s : String)
  | cloudPhaseDone
deriving DecidableEq, Repr

/-- The event trace of `main`, in the order the source performs them: the
grid-evaluation loop finishes, the calibration line is printed, the
cloud-counting loop finishes, the clouds line is printed. `none` models an
aborted run (a panic during grid evaluation). -/
def mainTrace (program : List Instruction) (fuel : ℕ) : Option (List Event) :=
  match evalGrid program fuel with
  | none => none
  | some (cal, act) =>
    some [.gridPhaseDone, .printed ("Calibration number: " ++ toString cal),
      .cloudPhaseDone, .printed ("Clouds: " ++ toString (count_clouds act))]

/-- The ordering property asserted by claim C9: every printed line occurs
after both phase-completion events in the trace. -/
def PrintsAfterBothPhases (tr : List Event) : Prop :=
  ∀ (i : ℕ) (s : String), tr[i]? = some (.printed s) →
    ∀ j : ℕ, (tr[j]? = some .gridPhaseDone ∨ tr[j]? = some .cloudPhaseDone) → j < i

/-- A two-instruction program returning 0 everywhere: every cell value is 0,
no cell is active. -/
def progZero : List Instruction := [.push (.num 0), .ret]

/-- A one-cell active grid, used as a concrete instance for the counting
theorems. -/
def gridOne : Finset Point := {⟨0, 0, 0⟩}

theorem mem_box {p : Point} :
    p ∈ box ↔ 0 ≤ p.x ∧ p.x < 30 ∧ 0 ≤ p.y ∧ p.y < 30 ∧ 0 ≤ p.z ∧ p.z < 30 := by
  obtain ⟨px, py, pz⟩ := p
  constructor
  · intro h
    simp only [box, Finset.mem_image, Finset.mem_product, Finset.mem_range] at h
    obtain ⟨⟨a, b, c⟩, ⟨ha, hb, hc⟩, heq⟩ := h
    simp only [Point.mk.injEq] at heq
    dsimp only at ha hb hc heq ⊢
    omega
  · intro h
    dsimp only at h
    simp only [box, Finset.mem_image, Finset.mem_product, Finset.mem_range]
    refine ⟨⟨px.toNat, py.toNat, pz.toNat⟩, ⟨by dsimp only; omega, by dsimp only; omega,
      by dsimp only; omega⟩, ?_⟩
    simp only [Point.mk.injEq]
    omega

theorem box_card : box.card = 27000 := by
  have hinj : Set.InjOn (fun t : ℕ × ℕ × ℕ => (⟨(t.1 : Int), (t.2.1 : Int), (t.2.2 : Int)⟩ : Point))
      ((Finset.range 30 ×ˢ Finset.range 30 ×ˢ Finset.range 30 : Finset (ℕ × ℕ × ℕ)) :
        Set (ℕ × ℕ × ℕ)) := by
    intro t _ t' _ h
    simp only [Point.mk.injEq] at h
    obtain ⟨a, b, c⟩ := t
    obtain ⟨a', b', c'⟩ := t'
    simp only [Prod.mk.injEq]
    dsimp only at h
    omega
  rw [box, Finset.card_image_of_injOn hinj]
  simp [Finset.card_product]

/-- `Point.add a b` succeeds exactly when the componentwise sum stays inside
the box, and then returns the sum. -/
theorem Point.add_eq (a b : Point) :
    Point.add a b =
      if (⟨b.x + a.x, b.y + a.y, b.z + a.z⟩ : Point) ∈ box
      then some ⟨b.x + a.x, b.y + a.y, b.z + a.z⟩ else none := by
  simp only [Point.add, mem_box]
  split_ifs <;> first | rfl | omega

theorem Point.add_mem_box {a b p : Point} (h : Point.add a b = some p) : p ∈ box := by
  rw [Point.add_eq] at h
  by_cases hb : (⟨b.x + a.x, b.y + a.y, b.z + a.z⟩ : Point) ∈ box
  · rw [if_pos hb] at h
    cases h
    exact hb
  · rw [if_neg hb] at h
    cases h

theorem mem_pointsList {p : Point} : p ∈ pointsList ↔ p ∈ box := by
  obtain ⟨px, py, pz⟩ := p
  simp only [pointsList, List.mem_flatMap, List.mem_map, List.mem_range, mem_box]
  constructor
  · rintro ⟨a, ha, b, hb, c, hc, heq⟩
    simp only [Point.mk.injEq] at heq
    omega
  · intro h
    exact ⟨px.toNat, by omega, py.toNat, by omega, pz.toNat, by omega, by
      simp only [Point.mk.injEq]; omega⟩

theorem pointsList_nodup : pointsList.Nodup := by
  have hy : ∀ (x y : ℕ) (p : Point),
      p ∈ (List.range 30).map (fun z : ℕ => (⟨(x : Int), (y : Int), (z : Int)⟩ : Point)) →
      p.y = y := by
    intro x y p hp
    simp only [List.mem_map, List.mem_range] at hp
    obtain ⟨z, -, rfl⟩ := hp
    rfl
  have hx : ∀ (x : ℕ) (p : Point),
      p ∈ (List.range 30).flatMap (fun y : ℕ =>
        (List.range 30).map fun z : ℕ => (⟨(x : Int), (y : Int), (z : Int)⟩ : Point)) →
      p.x = x := by
    intro x p hp
    simp only [List.mem_flatMap, List.mem_map, List.mem_range] at hp
    obtain ⟨y, -, z, -, rfl⟩ := hp
    rfl
  rw [pointsList, List.nodup_flatMap]
  refine ⟨fun x _ => ?_, ?_⟩
  · rw [List.nodup_flatMap]
    refine ⟨fun y _ => ?_, ?_⟩
    · refine (List.nodup_range 30).map ?_
      intro a b hab
      simp only [Point.mk.injEq] at hab
      omega
    · refine (List.pairwise_lt_range 30).imp ?_
      intro a b hab
      intro p hp hq
      have h1 := hy x a p hp
      have h2 := hy x b p hq
      omega
  · refine (List.pairwise_lt_range 30).imp ?_
    intro a b hab
    intro p hp hq
    have h1 := hx a p hp
    have h2 := hx b p hq
    omega

theorem pointsList_toFinset : pointsList.toFinset = box := by
  ext p
  simp [List.mem_toFinset, mem_pointsList]

theorem pointsList_length : pointsList.length = 27000 := by
  have h := List.toFinset_card_of_nodup pointsList_nodup
  rw [pointsList_toFinset, box_card] at h
  exact h.symm

example : Instruction.from_str "push x" = some (.push .x) := by decide

example : Instruction.from_str "push Y" = some (.push .y) := by decide

example : Instruction.from_str "push -12" = some (.push (.num (-12))) := by decide

example : Instruction.from_str "jmpos 3" = some (.jmpos 3) := by decide

example : Instruction.from_str "add" = some .add := by decide

example : Instruction.from_str "ret" = some .ret := by decide

example : Instruction.from_str "push w" = none := by decide

example : Instruction.from_str "jmpos abc" = none := by decide

example : Instruction.from_str "multiply" = none := by decide

example : Instruction.from_str "push" = none := by decide

example : Instruction.from_str "" = none := by decide

example : Instruction.from_str "ret 7 8" = some .ret := by decide

example :
    run_program [.push (.num 5), .push (.num 3), .add, .ret] ⟨0, 0, 0⟩ 10 0 [] =
      .ok 8 := by decide

example :
    run_program [.push (.num (-1)), .jmpos 5, .ret] ⟨0, 0, 0⟩ 10 0 [] = .fault := by decide

theorem adj_mem_box {s q : Point} (h : adj s q) : q ∈ box := by
  obtain ⟨o, -, ho⟩ := h
  exact Point.add_mem_box ho

theorem neg_mem_CARDINALS {o : Point} (h : o ∈ CARDINALS) :
    (⟨-o.x, -o.y, -o.z⟩ : Point) ∈ CARDINALS := by
  fin_cases h <;> decide

theorem adj_symm {s q : Point} (hs : s ∈ box) (h : adj s q) : adj q s := by
  obtain ⟨o, ho, hadd⟩ := h
  rw [Point.add_eq] at hadd
  by_cases hb : (⟨o.x + s.x, o.y + s.y, o.z + s.z⟩ : Point) ∈ box
  · rw [if_pos hb] at hadd
    cases hadd
    refine ⟨⟨-o.x, -o.y, -o.z⟩, neg_mem_CARDINALS ho, ?_⟩
    rw [Point.add_eq]
    have : (⟨-o.x + (o.x + s.x), -o.y + (o.y + s.y), -o.z + (o.z + s.z)⟩ : Point) = s := by
      obtain ⟨sx, sy, sz⟩ := s
      simp only [Point.mk.injEq]
      omega
    rw [this, if_pos hs]
  · rw [if_neg hb] at hadd
    cases hadd

theorem relA_symm {grid : Finset Point} (hg : grid ⊆ box) : Symmetric (relA grid) := by
  rintro a b ⟨ha, hb, hadj⟩
  exact ⟨hb, ha, adj_symm (hg ha) hadj⟩

theorem Reach.symm {grid : Finset Point} (hg : grid ⊆ box) {p q : Point}
    (h : Reach grid p q) : Reach grid q p :=
  Relation.ReflTransGen.symmetric (relA_symm hg) h

theorem Reach.trans {grid : Finset Point} {p q r : Point}
    (h1 : Reach grid p q) (h2 : Reach grid q r) : Reach grid p r :=
  Relation.ReflTransGen.trans h1 h2

theorem Reach.mem_grid {grid : Finset Point} {p q : Point} (hp : p ∈ grid)
    (h : Reach grid p q) : q ∈ grid := by
  induction h with
  | refl => exact hp
  | tail _ hrel _ => exact hrel.2.1

theorem subset_expandNbrs (grid S : Finset Point) : S ⊆ expandNbrs grid S :=
  Finset.subset_union_left

theorem expandNbrs_subset (grid S : Finset Point) (hS : S ⊆ grid) :
    expandNbrs grid S ⊆ grid :=
  Finset.union_subset hS (Finset.filter_subset _ _)

theorem expandNbrs_empty (grid : Finset Point) : expandNbrs grid ∅ = ∅ := by
  simp [expandNbrs]

theorem subset_iterate_expandNbrs (grid S : Finset Point) (k : ℕ) :
    S ⊆ (expandNbrs grid)^[k] S := by
  induction k with
  | zero => simp
  | succ k ih =>
    rw [Function.iterate_succ_apply']
    exact ih.trans (subset_expandNbrs _ _)

theorem iterate_expandNbrs_subset (grid S : Finset Point) (hS : S ⊆ grid) (k : ℕ) :
    (expandNbrs grid)^[k] S ⊆ grid := by
  induction k with
  | zero => simpa
  | succ k ih =>
    rw [Function.iterate_succ_apply']
    exact expandNbrs_subset _ _ ih

theorem iterate_expandNbrs_fixed (grid S : Finset Point) (hS : S ⊆ grid) :
    expandNbrs grid ((expandNbrs grid)^[grid.card] S) = (expandNbrs grid)^[grid.card] S := by
  by_contra hfix
  have hstrict : ∀ j : ℕ, j < grid.card →
      (expandNbrs grid)^[j] S ≠ (expandNbrs grid)^[j + 1] S := by
    intro j hj heq
    rw [Function.iterate_succ_apply'] at heq
    have hrest : (expandNbrs grid)^[grid.card] S = (expandNbrs grid)^[j] S := by
      have hsplit : grid.card = (grid.card - j) + j := by omega
      rw [hsplit, Function.iterate_add_apply]
      exact Function.iterate_fixed heq.symm _
    exact hfix (by rw [hrest, ← heq])
  have hcard : ∀ j : ℕ, j ≤ grid.card → S.card + j ≤ ((expandNbrs grid)^[j] S).card := by
    intro j
    induction j with
    | zero => simp
    | succ j ih =>
      intro hj1
      have hsub : (expandNbrs grid)^[j] S ⊆ (expandNbrs grid)^[j + 1] S := by
        rw [Function.iterate_succ_apply']
        exact subset_expandNbrs _ _
      have hlt : ((expandNbrs grid)^[j] S).card < ((expandNbrs grid)^[j + 1] S).card :=
        Finset.card_lt_card (lt_of_le_of_ne hsub (hstrict j (by omega)))
      have := ih (by omega)
      omega
  have h1 := hcard grid.card le_rfl
  have h2 := Finset.card_le_card (iterate_expandNbrs_subset grid S hS grid.card)
  have hS0 : S = ∅ := Finset.card_eq_zero.mp (by omega)
  subst hS0
  exact hfix (by rw [Function.iterate_fixed (expandNbrs_empty grid) grid.card,
    expandNbrs_empty])

theorem reach_of_mem_iterate {grid : Finset Point} {p : Point} (hp : p ∈ grid) :
    ∀ (k : ℕ) (S : Finset Point), S ⊆ grid → (∀ s ∈ S, Reach grid p s) →
      ∀ q ∈ (expandNbrs grid)^[k] S, Reach grid p q := by
  intro k
  induction k with
  | zero => intro S _ hS q hq; exact hS q (by simpa using hq)
  | succ k ih =>
    intro S hSg hS q hq
    rw [Function.iterate_succ_apply] at hq
    refine ih (expandNbrs grid S) (expandNbrs_subset _ _ hSg) ?_ q hq
    intro s hs
    rw [expandNbrs, Finset.mem_union] at hs
    rcases hs with hs | hs
    · exact hS s hs
    · rw [Finset.mem_filter] at hs
      obtain ⟨hsg, t, htS, hadj⟩ := hs
      exact Relation.ReflTransGen.tail (hS t htS) ⟨hSg htS, hsg, hadj⟩

theorem mem_compF {grid : Finset Point} {p q : Point} (hp : p ∈ grid) :
    q ∈ compF grid p ↔ Reach grid p q := by
  constructor
  · intro hq
    rw [compF, if_pos hp] at hq
    refine reach_of_mem_iterate hp grid.card {p} (by simpa) ?_ q hq
    intro s hs
    rw [Finset.mem_singleton] at hs
    subst hs
    exact Relation.ReflTransGen.refl
  · intro hq
    induction hq with
    | refl =>
      rw [compF, if_pos hp]
      exact subset_iterate_expandNbrs grid {p} grid.card (Finset.mem_singleton_self p)
    | tail hr hrel ih =>
      have hfix := iterate_expandNbrs_fixed grid (if p ∈ grid then {p} else ∅)
        (by rw [if_pos hp]; simpa)
      rw [compF] at ih ⊢
      rw [← hfix, expandNbrs, Finset.mem_union]
      right
      rw [Finset.mem_filter]
      exact ⟨hrel.2.1, _, ih, hrel.2.2⟩

theorem compF_subset_grid {grid : Finset Point} (p : Point) : compF grid p ⊆ grid := by
  rw [compF]
  split_ifs with hp
  · exact iterate_expandNbrs_subset grid {p} (by simpa) _
  · exact iterate_expandNbrs_subset grid ∅ (by simp) _

theorem mem_compF_self {grid : Finset Point} {p : Point} (hp : p ∈ grid) :
    p ∈ compF grid p :=
  (mem_compF hp).mpr Relation.ReflTransGen.refl

theorem compF_eq_of_reach {grid : Finset Point} (hg : grid ⊆ box) {p q : Point}
    (hp : p ∈ grid) (hq : q ∈ grid) (h : Reach grid p q) :
    compF grid p = compF grid q := by
  ext r
  rw [mem_compF hp, mem_compF hq]
  exact ⟨fun hr => (h.symm hg).trans hr, fun hr => h.trans hr⟩

theorem reach_of_compF_eq {grid : Finset Point} {p q : Point}
    (hp : p ∈ grid) (hq : q ∈ grid) (h : compF grid p = compF grid q) :
    Reach grid p q := by
  have := mem_compF_self hq
  rw [← h, mem_compF hp] at this
  exact this

theorem grow_cloud_zero (grid C : Finset Point) (p : Point) :
    grow_cloud grid 0 C p = (C, []) := by
  simp [grow_cloud]

theorem grow_cloud_succ_mem (grid C : Finset Point) (p : Point) (fuel : ℕ) (h : p ∈ grid) :
    grow_cloud grid (fuel + 1) C p =
      ((grow_loop grid fuel C p CARDINALS).1, p :: (grow_loop grid fuel C p CARDINALS).2) := by
  simp [grow_cloud, h]

theorem grow_cloud_not_mem (grid C : Finset Point) (p : Point) (fuel : ℕ) (h : p ∉ grid) :
    grow_cloud grid fuel C p = (C, []) := by
  cases fuel with
  | zero => simp [grow_cloud]
  | succ fuel => simp [grow_cloud, h]

theorem grow_loop_nil (grid C : Finset Point) (p : Point) (fuel : ℕ) :
    grow_loop grid fuel C p [] = (C, []) := by
  simp [grow_loop]

theorem grow_loop_cons_none (grid C : Finset Point) (p o : Point) (rest : List Point)
    (fuel : ℕ) (h : Point.add p o = none) :
    grow_loop grid fuel C p (o :: rest) = grow_loop grid fuel C p rest := by
  rw [grow_loop, h]

theorem grow_loop_cons_skip (grid C : Finset Point) (p o np : Point) (rest : List Point)
    (fuel : ℕ) (h : Point.add p o = some np) (h2 : np ∈ C) :
    grow_loop grid fuel C p (o :: rest) = grow_loop grid fuel C p rest := by
  rw [grow_loop, h]
  simp [h2]

theorem grow_loop_cons_inactive (grid C : Finset Point) (p o np : Point) (rest : List Point)
    (fuel : ℕ) (h : Point.add p o = some np) (h2 : np ∉ C) (h3 : np ∉ grid) :
    grow_loop grid fuel C p (o :: rest) = grow_loop grid fuel (insert np C) p rest := by
  rw [grow_loop, h]
  simp [h2, h3]

theorem grow_loop_cons_active (grid C : Finset Point) (p o np : Point) (rest : List Point)
    (fuel : ℕ) (h : Point.add p o = some np) (h2 : np ∉ C) (h3 : np ∈ grid) :
    grow_loop grid fuel C p (o :: rest) =
      ((grow_loop grid fuel (grow_cloud grid fuel (insert np C) np).1 p rest).1,
        (grow_cloud grid fuel (insert np C) np).2 ++
          (grow_loop grid fuel (grow_cloud grid fuel (insert np C) np).1 p rest).2) := by
  rw [grow_loop, h]
  simp [h2, h3]

theorem LoopConcl_nil (grid C : Finset Point) (p : Point) (hC : C ⊆ box) :
    LoopConcl grid C p [] (C, []) := by
  refine ⟨⟨subset_rfl, hC⟩, ?_, by simp, by simp, by simp⟩
  intro q
  simp only [List.not_mem_nil, false_iff]
  rintro ⟨-, hq1, hq2⟩
  exact hq2 hq1

theorem LoopConcl_cons_of_skip {grid C : Finset Point} {p o : Point} {os : List Point}
    {out : Finset Point × List Point} (h : LoopConcl grid C p os out)
    (ho : ∀ q, Point.add p o = some q → q ∈ grid → q ∈ out.1) :
    LoopConcl grid C p (o :: os) out := by
  obtain ⟨h1, h2, h3, h4, h5⟩ := h
  refine ⟨h1, h2, h3, ?_, h5⟩
  intro o' ho' q hq hqg
  rcases List.mem_cons.mp ho' with rfl | ho'
  · exact ho q hq hqg
  · exact h4 o' ho' q hq hqg

theorem LoopConcl_cons_of_inactive {grid C : Finset Point} {p o np : Point} {os : List Point}
    {out : Finset Point × List Point} (hnp_g : np ∉ grid)
    (hadd : Point.add p o = some np) (h : LoopConcl grid (insert np C) p os out) :
    LoopConcl grid C p (o :: os) out := by
  obtain ⟨⟨h1a, h1b⟩, h2, h3, h4, h5⟩ := h
  refine ⟨⟨(Finset.subset_insert np C).trans h1a, h1b⟩, ?_, h3, ?_, h5⟩
  · intro q
    rw [h2 q]
    constructor
    · rintro ⟨hqg, hq1, hqC⟩
      exact ⟨hqg, hq1, fun hc => hqC (Finset.mem_insert_of_mem hc)⟩
    · rintro ⟨hqg, hq1, hqC⟩
      refine ⟨hqg, hq1, fun hc => ?_⟩
      rcases Finset.mem_insert.mp hc with rfl | hc
      · exact hnp_g hqg
      · exact hqC hc
  · intro o' ho' q hq hqg
    rcases List.mem_cons.mp ho' with rfl | ho'
    · have hq_np := Option.some.inj (hadd.symm.trans hq)
      subst hq_np
      exact absurd hqg hnp_g
    · exact h4 o' ho' q hq hqg

theorem card_sdiff_insert_lt {C : Finset Point} {np : Point} (hnp : np ∈ box) (h : np ∉ C) :
    (box \ insert np C).card < (box \ C).card := by
  apply Finset.card_lt_card
  rw [Finset.ssubset_def]
  constructor
  · intro z hz
    rw [Finset.mem_sdiff] at hz ⊢
    exact ⟨hz.1, fun hzC => hz.2 (Finset.mem_insert_of_mem hzC)⟩
  · intro hsub
    have hmem : np ∈ box \ insert np C := hsub (by rw [Finset.mem_sdiff]; exact ⟨hnp, h⟩)
    rw [Finset.mem_sdiff] at hmem
    exact hmem.2 (Finset.mem_insert_self np C)

theorem grow_spec (grid : Finset Point) (hgrid : grid ⊆ box) : ∀ fuel : ℕ,
    (∀ C p, C ⊆ box → (box \ C).card < fuel → p ∈ C → p ∈ grid →
      CloudConcl grid C p (grow_cloud grid fuel C p)) ∧
    (∀ C p os, C ⊆ box → (box \ C).card ≤ fuel → p ∈ C → p ∈ grid → os ⊆ CARDINALS →
      LoopConcl grid C p os (grow_loop grid fuel C p os)) := by
  intro fuel
  induction fuel with
  | zero =>
    refine ⟨fun C p hC hcard hpC hpg => absurd hcard (by omega), ?_⟩
    have hloop : ∀ os : List Point, os ⊆ CARDINALS → ∀ C p, C ⊆ box →
        (box \ C).card ≤ 0 → p ∈ C → p ∈ grid →
        LoopConcl grid C p os (grow_loop grid 0 C p os) := by
      intro os
      induction os with
      | nil =>
        intro _ C p hC _ _ _
        rw [grow_loop_nil]
        exact LoopConcl_nil grid C p hC
      | cons o rest ihos =>
        intro hos C p hC hcard hpC hpg
        have hrest : rest ⊆ CARDINALS := fun o' ho' => hos (List.mem_cons_of_mem o ho')
        cases hadd : Point.add p o with
        | none =>
          rw [grow_loop_cons_none grid C p o rest 0 hadd]
          refine LoopConcl_cons_of_skip (ihos hrest C p hC hcard hpC hpg) ?_
          intro q hq _
          rw [hadd] at hq
          cases hq
        | some np =>
          by_cases hnpC : np ∈ C
          · rw [grow_loop_cons_skip grid C p o np rest 0 hadd hnpC]
            have hl := ihos hrest C p hC hcard hpC hpg
            refine LoopConcl_cons_of_skip hl ?_
            intro q hq _
            have hqe := Option.some.inj (hadd.symm.trans hq)
            subst hqe
            exact hl.1.1 hnpC
          · exfalso
            have hnpbox : np ∈ box := Point.add_mem_box hadd
            have h2 : 0 < (box \ C).card :=
              Finset.card_pos.mpr ⟨np, Finset.mem_sdiff.mpr ⟨hnpbox, hnpC⟩⟩
            omega
    exact fun C p os hC hcard hpC hpg hos => hloop os hos C p hC hcard hpC hpg
  | succ fuel ih =>
    have hcloud : ∀ C p, C ⊆ box → (box \ C).card < fuel + 1 → p ∈ C → p ∈ grid →
        CloudConcl grid C p (grow_cloud grid (fuel + 1) C p) := by
      intro C p hC hcard hpC hpg
      have hloopF := ih.2 C p CARDINALS hC (by omega) hpC hpg (List.Subset.refl _)
      rw [grow_cloud_succ_mem grid C p fuel hpg]
      obtain ⟨⟨l1a, l1b⟩, l2, l3, l4, l5⟩ := hloopF
      refine ⟨⟨l1a, l1b⟩, ?_, ?_, ?_⟩
      · intro q
        dsimp only
        rw [List.mem_cons, l2 q]
      · intro s hs q hqg hadj
        dsimp only at hs ⊢
        rcases List.mem_cons.mp hs with rfl | hs
        · obtain ⟨o, ho, haddq⟩ := hadj
          exact l4 o ho q haddq hqg
        · exact l3 s hs q hqg hadj
      · intro q hq
        dsimp only at hq
        rcases List.mem_cons.mp hq with rfl | hq
        · exact Relation.ReflTransGen.refl
        · exact l5 q hq
    have hloop : ∀ os : List Point, os ⊆ CARDINALS → ∀ C p, C ⊆ box →
        (box \ C).card ≤ fuel + 1 → p ∈ C → p ∈ grid →
        LoopConcl grid C p os (grow_loop grid (fuel + 1) C p os) := by
      intro os
      induction os with
      | nil =>
        intro _ C p hC _ _ _
        rw [grow_loop_nil]
        exact LoopConcl_nil grid C p hC
      | cons o rest ihos =>
        intro hos C p hC hcard hpC hpg
        have hrest : rest ⊆ CARDINALS := fun o' ho' => hos (List.mem_cons_of_mem o ho')
        cases hadd : Point.add p o with
        | none =>
          rw [grow_loop_cons_none grid C p o rest (fuel + 1) hadd]
          refine LoopConcl_cons_of_skip (ihos hrest C p hC hcard hpC hpg) ?_
          intro q hq _
          rw [hadd] at hq
          cases hq
        | some np =>
          by_cases hnpC : np ∈ C
          · rw [grow_loop_cons_skip grid C p o np rest (fuel + 1) hadd hnpC]
            have hl := ihos hrest C p hC hcard hpC hpg
            refine LoopConcl_cons_of_skip hl ?_
            intro q hq _
            have hqe := Option.some.inj (hadd.symm.trans hq)
            subst hqe
            exact hl.1.1 hnpC
          · have hnpbox : np ∈ box := Point.add_mem_box hadd
            have hC1 : insert np C ⊆ box := Finset.insert_subset hnpbox hC
            have hcard1 : (box \ insert np C).card < (box \ C).card :=
              card_sdiff_insert_lt hnpbox hnpC
            by_cases hnpg : np ∈ grid
            · rw [grow_loop_cons_active grid C p o np rest (fuel + 1) hadd hnpC hnpg]
              have hcl := hcloud (insert np C) np hC1 (by omega)
                (Finset.mem_insert_self np C) hnpg
              obtain ⟨⟨c1a, c1b⟩, c2, c3, c4⟩ := hcl
              have hr1card :
                  (box \ (grow_cloud grid (fuel + 1) (insert np C) np).1).card ≤ fuel + 1 := by
                have hsub : box \ (grow_cloud grid (fuel + 1) (insert np C) np).1 ⊆
                    box \ insert np C := by
                  intro z hz
                  rw [Finset.mem_sdiff] at hz ⊢
                  exact ⟨hz.1, fun hzc => hz.2 (c1a hzc)⟩
                have := Finset.card_le_card hsub
                omega
              have hpr1 : p ∈ (grow_cloud grid (fuel + 1) (insert np C) np).1 :=
                c1a (Finset.mem_insert_of_mem hpC)
              have hl := ihos hrest (grow_cloud grid (fuel + 1) (insert np C) np).1 p
                c1b hr1card hpr1 hpg
              obtain ⟨⟨l1a, l1b⟩, l2, l3, l4, l5⟩ := hl
              refine ⟨⟨((Finset.subset_insert np C).trans c1a).trans l1a, l1b⟩,
                ?_, ?_, ?_, ?_⟩
              · intro q
                dsimp only
                rw [List.mem_append, c2 q, l2 q]
                constructor
                · rintro ((heq | ⟨hqg, hq1, hqC1⟩) | ⟨hqg, hq1, hqr1⟩)
                  · rw [heq]
                    exact ⟨hnpg, l1a (c1a (Finset.mem_insert_self np C)), hnpC⟩
                  · exact ⟨hqg, l1a hq1, fun hc => hqC1 (Finset.mem_insert_of_mem hc)⟩
                  · exact ⟨hqg, hq1, fun hc =>
                      hqr1 (c1a (Finset.mem_insert_of_mem hc))⟩
                · rintro ⟨hqg, hq1, hqC⟩
                  by_cases hqr1 : q ∈ (grow_cloud grid (fuel + 1) (insert np C) np).1
                  · left
                    by_cases hqnp : q = np
                    · exact Or.inl hqnp
                    · exact Or.inr ⟨hqg, hqr1, fun hc =>
                        (Finset.mem_insert.mp hc).elim hqnp hqC⟩
                  · exact Or.inr ⟨hqg, hq1, hqr1⟩
              · intro s hs q hqg hadj
                dsimp only at hs ⊢
                rcases List.mem_append.mp hs with hs | hs
                · exact l1a (c3 s hs q hqg hadj)
                · exact l3 s hs q hqg hadj
              · intro o' ho' q hq hqg
                rcases List.mem_cons.mp ho' with rfl | ho'
                · have hqe := Option.some.inj (hadd.symm.trans hq)
                  subst hqe
                  exact l1a (c1a (Finset.mem_insert_self np C))
                · exact l4 o' ho' q hq hqg
              · intro q hq
                dsimp only at hq
                rcases List.mem_append.mp hq with hq | hq
                · have hadjpnp : adj p np := ⟨o, hos (List.mem_cons_self o rest), hadd⟩
                  have h1 : Reach grid p np :=
                    Relation.ReflTransGen.single ⟨hpg, hnpg, hadjpnp⟩
                  exact h1.trans (c4 q hq)
                · exact l5 q hq
            · rw [grow_loop_cons_inactive grid C p o np rest (fuel + 1) hadd hnpC hnpg]
              exact LoopConcl_cons_of_inactive hnpg hadd
                (ihos hrest (insert np C) p hC1 (by omega)
                  (Finset.mem_insert_of_mem hpC) hpg)
    exact ⟨hcloud, fun C p os hC hcard hpC hpg hos => hloop os hos C p hC hcard hpC hpg⟩

theorem fuel_card_lt (C : Finset Point) : (box \ C).card < FUEL := by
  have h1 : (box \ C).card ≤ box.card := Finset.card_le_card Finset.sdiff_subset
  rw [box_card] at h1
  rw [FUEL]
  omega

theorem growSpec_grow_cloud (grid : Finset Point) (hgrid : grid ⊆ box) :
    GrowSpec grid (grow_cloud grid FUEL) := by
  have hs := (grow_spec grid hgrid FUEL).1
  refine ⟨?_, ?_, ?_, ?_, ?_, ?_⟩
  · exact fun C p h => grow_cloud_not_mem grid C p FUEL h
  · exact fun C p hC hpC hpg => (hs C p hC (fuel_card_lt C) hpC hpg).1.1
  · exact fun C p hC hpC hpg => (hs C p hC (fuel_card_lt C) hpC hpg).1.2
  · exact fun C p hC hpC hpg => (hs C p hC (fuel_card_lt C) hpC hpg).2.1
  · exact fun C p hC hpC hpg => (hs C p hC (fuel_card_lt C) hpC hpg).2.2.1
  · exact fun C p hC hpC hpg => (hs C p hC (fuel_card_lt C) hpC hpg).2.2.2

theorem grow_cloud_skip_succ_mem (grid C : Finset Point) (p : Point) (fuel : ℕ)
    (h : p ∈ grid) :
    grow_cloud_skip grid (fuel + 1) C p =
      ((grow_loop_skip grid fuel C p CARDINALS).1,
        p :: (grow_loop_skip grid fuel C p CARDINALS).2) := by
  simp [grow_cloud_skip, h]

theorem grow_cloud_skip_not_mem (grid C : Finset Point) (p : Point) (fuel : ℕ)
    (h : p ∉ grid) :
    grow_cloud_skip grid fuel C p = (C, []) := by
  cases fuel with
  | zero => simp [grow_cloud_skip]
  | succ fuel => simp [grow_cloud_skip, h]

theorem grow_loop_skip_nil (grid C : Finset Point) (p : Point) (fuel : ℕ) :
    grow_loop_skip grid fuel C p [] = (C, []) := by
  simp [grow_loop_skip]

theorem grow_loop_skip_cons_none (grid C : Finset Point) (p o : Point) (rest : List Point)
    (fuel : ℕ) (h : Point.add p o = none) :
    grow_loop_skip grid fuel C p (o :: rest) = grow_loop_skip grid fuel C p rest := by
  rw [grow_loop_skip, h]

theorem grow_loop_skip_cons_skip (grid C : Finset Point) (p o np : Point) (rest : List Point)
    (fuel : ℕ) (h : Point.add p o = some np) (h2 : np ∈ C) :
    grow_loop_skip grid fuel C p (o :: rest) = grow_loop_skip grid fuel C p rest := by
  rw [grow_loop_skip, h]
  simp [h2]

theorem grow_loop_skip_cons_inactive (grid C : Finset Point) (p o np : Point)
    (rest : List Point) (fuel : ℕ) (h : Point.add p o = some np) (h2 : np ∉ C)
    (h3 : np ∉ grid) :
    grow_loop_skip grid fuel C p (o :: rest) = grow_loop_skip grid fuel C p rest := by
  rw [grow_loop_skip, h]
  simp [h2, h3]

theorem grow_loop_skip_cons_active (grid C : Finset Point) (p o np : Point)
    (rest : List Point) (fuel : ℕ) (h : Point.add p o = some np) (h2 : np ∉ C)
    (h3 : np ∈ grid) :
    grow_loop_skip grid fuel C p (o :: rest) =
      ((grow_loop_skip grid fuel (grow_cloud_skip grid fuel (insert np C) np).1 p rest).1,
        (grow_cloud_skip grid fuel (insert np C) np).2 ++
          (grow_loop_skip grid fuel (grow_cloud_skip grid fuel (insert np C) np).1 p rest).2) := by
  rw [grow_loop_skip, h]
  simp [h2, h3]

theorem grow_spec_skip (grid : Finset Point) (hgrid : grid ⊆ box) : ∀ fuel : ℕ,
    (∀ C p, C ⊆ box → (box \ C).card < fuel → p ∈ C → p ∈ grid →
      CloudConcl grid C p (grow_cloud_skip grid fuel C p)) ∧
    (∀ C p os, C ⊆ box → (box \ C).card ≤ fuel → p ∈ C → p ∈ grid → os ⊆ CARDINALS →
      LoopConcl grid C p os (grow_loop_skip grid fuel C p os)) := by
  intro fuel
  induction fuel with
  | zero =>
    refine ⟨fun C p hC hcard hpC hpg => absurd hcard (by omega), ?_⟩
    have hloop : ∀ os : List Point, os ⊆ CARDINALS → ∀ C p, C ⊆ box →
        (box \ C).card ≤ 0 → p ∈ C → p ∈ grid →
        LoopConcl grid C p os (grow_loop_skip grid 0 C p os) := by
      intro os
      induction os with
      | nil =>
        intro _ C p hC _ _ _
        rw [grow_loop_skip_nil]
        exact LoopConcl_nil grid C p hC
      | cons o rest ihos =>
        intro hos C p hC hcard hpC hpg
        have hrest : rest ⊆ CARDINALS := fun o' ho' => hos (List.mem_cons_of_mem o ho')
        cases hadd : Point.add p o with
        | none =>
          rw [grow_loop_skip_cons_none grid C p o rest 0 hadd]
          refine LoopConcl_cons_of_skip (ihos hrest C p hC hcard hpC hpg) ?_
          intro q hq _
          rw [hadd] at hq
          cases hq
        | some np =>
          by_cases hnpC : np ∈ C
          · rw [grow_loop_skip_cons_skip grid C p o np rest 0 hadd hnpC]
            have hl := ihos hrest C p hC hcard hpC hpg
            refine LoopConcl_cons_of_skip hl ?_
            intro q hq _
            have hqe := Option.some.inj (hadd.symm.trans hq)
            subst hqe
            exact hl.1.1 hnpC
          · exfalso
            have hnpbox : np ∈ box := Point.add_mem_box hadd
            have h2 : 0 < (box \ C).card :=
              Finset.card_pos.mpr ⟨np, Finset.mem_sdiff.mpr ⟨hnpbox, hnpC⟩⟩
            omega
    exact fun C p os hC hcard hpC hpg hos => hloop os hos C p hC hcard hpC hpg
  | succ fuel ih =>
    have hcloud : ∀ C p, C ⊆ box → (box \ C).card < fuel + 1 → p ∈ C → p ∈ grid →
        CloudConcl grid C p (grow_cloud_skip grid (fuel + 1) C p) := by
      intro C p hC hcard hpC hpg
      have hloopF := ih.2 C p CARDINALS hC (by omega) hpC hpg (List.Subset.refl _)
      rw [grow_cloud_skip_succ_mem grid C p fuel hpg]
      obtain ⟨⟨l1a, l1b⟩, l2, l3, l4, l5⟩ := hloopF
      refine ⟨⟨l1a, l1b⟩, ?_, ?_, ?_⟩
      · intro q
        dsimp only
        rw [List.mem_cons, l2 q]
      · intro s hs q hqg hadj
        dsimp only at hs ⊢
        rcases List.mem_cons.mp hs with rfl | hs
        · obtain ⟨o, ho, haddq⟩ := hadj
          exact l4 o ho q haddq hqg
        · exact l3 s hs q hqg hadj
      · intro q hq
        dsimp only at hq
        rcases List.mem_cons.mp hq with rfl | hq
        · exact Relation.ReflTransGen.refl
        · exact l5 q hq
    have hloop : ∀ os : List Point, os ⊆ CARDINALS → ∀ C p, C ⊆ box →
        (box \ C).card ≤ fuel + 1 → p ∈ C → p ∈ grid →
        LoopConcl grid C p os (grow_loop_skip grid (fuel + 1) C p os) := by
      intro os
      induction os with
      | nil =>
        intro _ C p hC _ _ _
        rw [grow_loop_skip_nil]
        exact LoopConcl_nil grid C p hC
      | cons o rest ihos =>
        intro hos C p hC hcard hpC hpg
        have hrest : rest ⊆ CARDINALS := fun o' ho' => hos (List.mem_cons_of_mem o ho')
        cases hadd : Point.add p o with
        | none =>
          rw [grow_loop_skip_cons_none grid C p o rest (fuel + 1) hadd]
          refine LoopConcl_cons_of_skip (ihos hrest C p hC hcard hpC hpg) ?_
          intro q hq _
          rw [hadd] at hq
          cases hq
        | some np =>
          by_cases hnpC : np ∈ C
          · rw [grow_loop_skip_cons_skip grid C p o np rest (fuel + 1) hadd hnpC]
            have hl := ihos hrest C p hC hcard hpC hpg
            refine LoopConcl_cons_of_skip hl ?_
            intro q hq _
            have hqe := Option.some.inj (hadd.symm.trans hq)
            subst hqe
            exact hl.1.1 hnpC
          · have hnpbox : np ∈ box := Point.add_mem_box hadd
            have hC1 : insert np C ⊆ box := Finset.insert_subset hnpbox hC
            have hcard1 : (box \ insert np C).card < (box \ C).card :=
              card_sdiff_insert_lt hnpbox hnpC
            by_cases hnpg : np ∈ grid
            · rw [grow_loop_skip_cons_active grid C p o np rest (fuel + 1) hadd hnpC hnpg]
              have hcl := hcloud (insert np C) np hC1 (by omega)
                (Finset.mem_insert_self np C) hnpg
              obtain ⟨⟨c1a, c1b⟩, c2, c3, c4⟩ := hcl
              have hr1card :
                  (box \ (grow_cloud_skip grid (fuel + 1) (insert np C) np).1).card ≤
                    fuel + 1 := by
                have hsub : box \ (grow_cloud_skip grid (fuel + 1) (insert np C) np).1 ⊆
                    box \ insert np C := by
                  intro z hz
                  rw [Finset.mem_sdiff] at hz ⊢
                  exact ⟨hz.1, fun hzc => hz.2 (c1a hzc)⟩
                have := Finset.card_le_card hsub
                omega
              have hpr1 : p ∈ (grow_cloud_skip grid (fuel + 1) (insert np C) np).1 :=
                c1a (Finset.mem_insert_of_mem hpC)
              have hl := ihos hrest (grow_cloud_skip grid (fuel + 1) (insert np C) np).1 p
                c1b hr1card hpr1 hpg
              obtain ⟨⟨l1a, l1b⟩, l2, l3, l4, l5⟩ := hl
              refine ⟨⟨((Finset.subset_insert np C).trans c1a).trans l1a, l1b⟩,
                ?_, ?_, ?_, ?_⟩
              · intro q
                dsimp only
                rw [List.mem_append, c2 q, l2 q]
                constructor
                · rintro ((heq | ⟨hqg, hq1, hqC1⟩) | ⟨hqg, hq1, hqr1⟩)
                  · rw [heq]
                    exact ⟨hnpg, l1a (c1a (Finset.mem_insert_self np C)), hnpC⟩
                  · exact ⟨hqg, l1a hq1, fun hc => hqC1 (Finset.mem_insert_of_mem hc)⟩
                  · exact ⟨hqg, hq1, fun hc =>
                      hqr1 (c1a (Finset.mem_insert_of_mem hc))⟩
                · rintro ⟨hqg, hq1, hqC⟩
                  by_cases hqr1 : q ∈ (grow_cloud_skip grid (fuel + 1) (insert np C) np).1
                  · left
                    by_cases hqnp : q = np
                    · exact Or.inl hqnp
                    · exact Or.inr ⟨hqg, hqr1, fun hc =>
                        (Finset.mem_insert.mp hc).elim hqnp hqC⟩
                  · exact Or.inr ⟨hqg, hq1, hqr1⟩
              · intro s hs q hqg hadj
                dsimp only at hs ⊢
                rcases List.mem_append.mp hs with hs | hs
                · exact l1a (c3 s hs q hqg hadj)
                · exact l3 s hs q hqg hadj
              · intro o' ho' q hq hqg
                rcases List.mem_cons.mp ho' with rfl | ho'
                · have hqe := Option.some.inj (hadd.symm.trans hq)
                  subst hqe
                  exact l1a (c1a (Finset.mem_insert_self np C))
                · exact l4 o' ho' q hq hqg
              · intro q hq
                dsimp only at hq
                rcases List.mem_append.mp hq with hq | hq
                · have hadjpnp : adj p np := ⟨o, hos (List.mem_cons_self o rest), hadd⟩
                  have h1 : Reach grid p np :=
                    Relation.ReflTransGen.single ⟨hpg, hnpg, hadjpnp⟩
                  exact h1.trans (c4 q hq)
                · exact l5 q hq
            · rw [grow_loop_skip_cons_inactive grid C p o np rest (fuel + 1) hadd hnpC hnpg]
              refine LoopConcl_cons_of_skip (ihos hrest C p hC hcard hpC hpg) ?_
              intro q hq hqg
              have hqe := Option.some.inj (hadd.symm.trans hq)
              subst hqe
              exact absurd hqg hnpg
    exact ⟨hcloud, fun C p os hC hcard hpC hpg hos => hloop os hos C p hC hcard hpC hpg⟩

theorem growSpec_grow_cloud_skip (grid : Finset Point) (hgrid : grid ⊆ box) :
    GrowSpec grid (grow_cloud_skip grid FUEL) := by
  have hs := (grow_spec_skip grid hgrid FUEL).1
  refine ⟨?_, ?_, ?_, ?_, ?_, ?_⟩
  · exact fun C p h => grow_cloud_skip_not_mem grid C p FUEL h
  · exact fun C p hC hpC hpg => (hs C p hC (fuel_card_lt C) hpC hpg).1.1
  · exact fun C p hC hpC hpg => (hs C p hC (fuel_card_lt C) hpC hpg).1.2
  · exact fun C p hC hpC hpg => (hs C p hC (fuel_card_lt C) hpC hpg).2.1
  · exact fun C p hC hpC hpg => (hs C p hC (fuel_card_lt C) hpC hpg).2.2.1
  · exact fun C p hC hpC hpg => (hs C p hC (fuel_card_lt C) hpC hpg).2.2.2

theorem count_clouds_loop_nil (grow : Finset Point → Point → Finset Point × List Point)
    (C : Finset Point) (n : ℕ) : count_clouds_loop grow [] C n = n := rfl

theorem count_clouds_loop_cons_mem (grow : Finset Point → Point → Finset Point × List Point)
    (p : Point) (rest : List Point) (C : Finset Point) (n : ℕ) (h : p ∈ C) :
    count_clouds_loop grow (p :: rest) C n = count_clouds_loop grow rest C n := by
  simp [count_clouds_loop, h]

theorem count_clouds_loop_cons (grow : Finset Point → Point → Finset Point × List Point)
    (p : Point) (rest : List Point) (C : Finset Point) (n : ℕ) (h : p ∉ C) :
    count_clouds_loop grow (p :: rest) C n =
      count_clouds_loop grow rest (grow (insert p C) p).1
        (if (grow (insert p C) p).2 = [] then n else n + 1) := by
  simp [count_clouds_loop, h]

theorem count_loop_spec (grid : Finset Point) (hgrid : grid ⊆ box)
    (grow : Finset Point → Point → Finset Point × List Point) (hG : GrowSpec grid grow) :
    ∀ (l : List Point) (C : Finset Point) (n : ℕ),
      (∀ p ∈ l, p ∈ box) → C ⊆ box →
      (∀ q, q ∈ grid → q ∈ C → compF grid q ⊆ C) →
      n = ((C ∩ grid).image (compF grid)).card →
      count_clouds_loop grow l C n =
        (((C ∪ l.toFinset) ∩ grid).image (compF grid)).card := by
  intro l
  induction l with
  | nil =>
    intro C n _ _ _ hn
    rw [count_clouds_loop_nil, hn]
    simp
  | cons p rest ihl =>
    intro C n hl hC hsat hn
    have hpbox : p ∈ box := hl p (List.mem_cons_self p rest)
    have hrest : ∀ q ∈ rest, q ∈ box := fun q hq => hl q (List.mem_cons_of_mem p hq)
    by_cases hpC : p ∈ C
    · rw [count_clouds_loop_cons_mem grow p rest C n hpC,
        ihl C n hrest hC hsat hn]
      congr 2
      rw [List.toFinset_cons, Finset.union_insert,
        Finset.insert_eq_self.mpr (Finset.mem_union_left _ hpC)]
    · by_cases hpg : p ∈ grid
      · -- p starts a fresh cloud
        have hC1 : insert p C ⊆ box := Finset.insert_subset hpbox hC
        have hpC1 : p ∈ insert p C := Finset.mem_insert_self p C
        have hmono := hG.mono (insert p C) p hC1 hpC1 hpg
        have hinbox := hG.inbox (insert p C) p hC1 hpC1 hpg
        have hm := hG.mem_snd (insert p C) p hC1 hpC1 hpg
        have hclosed := hG.closed (insert p C) p hC1 hpC1 hpg
        have hreaches := hG.reaches (insert p C) p hC1 hpC1 hpg
        have comp_disj : ∀ z ∈ compF grid p, z ∉ C := by
          intro z hz hzC
          have hreach : Reach grid p z := (mem_compF hpg).mp hz
          have hzg : z ∈ grid := Reach.mem_grid hpg hreach
          have h1 : compF grid z ⊆ C := hsat z hzg hzC
          have h2 : compF grid p = compF grid z := compF_eq_of_reach hgrid hpg hzg hreach
          exact hpC (h1 (h2 ▸ mem_compF_self hpg))
        have hpr2 : p ∈ (grow (insert p C) p).2 := (hm p).mpr (Or.inl rfl)
        have hreach_mem : ∀ z, Reach grid p z → z ∈ (grow (insert p C) p).2 := by
          intro z hz
          induction hz with
          | refl => exact hpr2
          | tail hab hrel ihz =>
            rename_i b c
            obtain ⟨hbg, hcg, hadjbc⟩ := hrel
            have hbr2 := ihz
            have hcr1 : c ∈ (grow (insert p C) p).1 := hclosed b hbr2 c hcg hadjbc
            refine (hm c).mpr ?_
            by_cases hcp : c = p
            · exact Or.inl hcp
            · refine Or.inr ⟨hcg, hcr1, fun hcC1 => ?_⟩
              rcases Finset.mem_insert.mp hcC1 with h | h
              · exact hcp h
              · exact comp_disj c
                  ((mem_compF hpg).mpr (Relation.ReflTransGen.tail hab ⟨hbg, hcg, hadjbc⟩)) h
        have hcomp_sub : compF grid p ⊆ (grow (insert p C) p).1 := by
          intro z hz
          have hz2 := hreach_mem z ((mem_compF hpg).mp hz)
          rcases (hm z).mp hz2 with rfl | ⟨-, hz1, -⟩
          · exact hmono hpC1
          · exact hz1
        have hr1grid : (grow (insert p C) p).1 ∩ grid =
            (C ∩ grid) ∪ compF grid p := by
          ext q
          simp only [Finset.mem_inter, Finset.mem_union]
          constructor
          · rintro ⟨hq1, hqg⟩
            by_cases hqC : q ∈ C
            · exact Or.inl ⟨hqC, hqg⟩
            · right
              by_cases hqp : q = p
              · rw [hqp]
                exact mem_compF_self hpg
              · have hq2 : q ∈ (grow (insert p C) p).2 :=
                  (hm q).mpr (Or.inr ⟨hqg, hq1, fun hc =>
                    (Finset.mem_insert.mp hc).elim hqp hqC⟩)
                exact (mem_compF hpg).mpr (hreaches q hq2)
          · rintro (⟨hqC, hqg⟩ | hq)
            · exact ⟨hmono (Finset.mem_insert_of_mem hqC), hqg⟩
            · exact ⟨hcomp_sub hq, compF_subset_grid p hq⟩
        have hsat1 : ∀ q, q ∈ grid → q ∈ (grow (insert p C) p).1 →
            compF grid q ⊆ (grow (insert p C) p).1 := by
          intro q hqg hq1
          have hq : q ∈ (grow (insert p C) p).1 ∩ grid := Finset.mem_inter.mpr ⟨hq1, hqg⟩
          rw [hr1grid, Finset.mem_union] at hq
          rcases hq with hqCg | hq
          · exact (hsat q hqg (Finset.mem_inter.mp hqCg).1).trans
              ((Finset.subset_insert p C).trans hmono)
          · have hreach : Reach grid p q := (mem_compF hpg).mp hq
            have hcomp_eq : compF grid q = compF grid p :=
              (compF_eq_of_reach hgrid hpg (Reach.mem_grid hpg hreach) hreach).symm
            rw [hcomp_eq]
            exact hcomp_sub
        have himage_comp : (compF grid p).image (compF grid) = {compF grid p} := by
          ext X
          simp only [Finset.mem_image, Finset.mem_singleton]
          constructor
          · rintro ⟨z, hz, rfl⟩
            have hreach : Reach grid p z := (mem_compF hpg).mp hz
            exact (compF_eq_of_reach hgrid hpg (Reach.mem_grid hpg hreach) hreach).symm
          · rintro rfl
            exact ⟨p, mem_compF_self hpg, rfl⟩
        have hnotmem : compF grid p ∉ (C ∩ grid).image (compF grid) := by
          rw [Finset.mem_image]
          rintro ⟨q, hq, hqe⟩
          rw [Finset.mem_inter] at hq
          have hpq : p ∈ compF grid q := hqe.symm ▸ mem_compF_self hpg
          exact hpC (hsat q hq.2 hq.1 hpq)
        have hn1 : n + 1 = (((grow (insert p C) p).1 ∩ grid).image (compF grid)).card := by
          rw [hr1grid, Finset.image_union, himage_comp]
          have hins : (C ∩ grid).image (compF grid) ∪ {compF grid p} =
              insert (compF grid p) ((C ∩ grid).image (compF grid)) := by
            rw [Finset.union_comm, ← Finset.insert_eq]
          rw [hins, Finset.card_insert_of_not_mem hnotmem, ← hn]
        rw [count_clouds_loop_cons grow p rest C n hpC,
          if_neg (by exact fun he => (List.ne_nil_of_mem hpr2) he),
          ihl (grow (insert p C) p).1 (n + 1) hrest hinbox hsat1 hn1]
        -- the images over the two final considered sets agree
        apply congrArg
        ext X
        simp only [Finset.mem_image, Finset.mem_inter, Finset.mem_union,
          List.toFinset_cons, Finset.mem_insert]
        constructor
        · rintro ⟨q, ⟨hq1 | hqR, hqg⟩, rfl⟩
          · have hq : q ∈ (grow (insert p C) p).1 ∩ grid :=
              Finset.mem_inter.mpr ⟨hq1, hqg⟩
            rw [hr1grid, Finset.mem_union] at hq
            rcases hq with hqCg | hq
            · exact ⟨q, ⟨Or.inl (Finset.mem_inter.mp hqCg).1, hqg⟩, rfl⟩
            · have hreach : Reach grid p q := (mem_compF hpg).mp hq
              refine ⟨p, ⟨Or.inr (Or.inl rfl), hpg⟩, ?_⟩
              exact compF_eq_of_reach hgrid hpg (Reach.mem_grid hpg hreach) hreach
          · exact ⟨q, ⟨Or.inr (Or.inr hqR), hqg⟩, rfl⟩
        · rintro ⟨q, ⟨hqC | hqp | hqR, hqg⟩, rfl⟩
          · exact ⟨q, ⟨Or.inl (hmono (Finset.mem_insert_of_mem hqC)), hqg⟩, rfl⟩
          · exact ⟨q, ⟨Or.inl (by rw [hqp]; exact hmono hpC1), hqg⟩, rfl⟩
          · exact ⟨q, ⟨Or.inr hqR, hqg⟩, rfl⟩
      · -- p is inactive: it is consumed without starting a cloud
        rw [count_clouds_loop_cons grow p rest C n hpC, hG.inact (insert p C) p hpg]
        dsimp only
        rw [if_pos rfl]
        have hsat1 : ∀ q, q ∈ grid → q ∈ insert p C → compF grid q ⊆ insert p C := by
          intro q hqg hq1
          rcases Finset.mem_insert.mp hq1 with rfl | hqC
          · exact absurd hqg hpg
          · exact (hsat q hqg hqC).trans (Finset.subset_insert p C)
        have hn1 : n = ((insert p C ∩ grid).image (compF grid)).card := by
          rw [hn]
          congr 2
          ext q
          simp only [Finset.mem_inter, Finset.mem_insert]
          constructor
          · rintro ⟨hqC, hqg⟩
            exact ⟨Or.inr hqC, hqg⟩
          · rintro ⟨rfl | hqC, hqg⟩
            · exact absurd hqg hpg
            · exact ⟨hqC, hqg⟩
        rw [ihl (insert p C) n hrest (Finset.insert_subset hpbox hC) hsat1 hn1]
        congr 2
        rw [List.toFinset_cons, Finset.insert_union, Finset.union_insert]

theorem empty_sat (grid : Finset Point) :
    ∀ q, q ∈ grid → q ∈ (∅ : Finset Point) → compF grid q ⊆ ∅ := by
  intro q _ hq
  exact absurd hq (Finset.not_mem_empty q)

theorem empty_count (grid : Finset Point) :
    0 = (((∅ : Finset Point) ∩ grid).image (compF grid)).card := by
  simp

theorem count_clouds_eq (grid : Finset Point) (hgrid : grid ⊆ box) :
    count_clouds grid = numClouds grid := by
  have h := count_loop_spec grid hgrid (grow_cloud grid FUEL)
    (growSpec_grow_cloud grid hgrid) pointsList ∅ 0
    (fun p hp => mem_pointsList.mp hp) (Finset.empty_subset box)
    (empty_sat grid) (empty_count grid)
  rw [pointsList_toFinset, Finset.empty_union,
    Finset.inter_eq_right.mpr hgrid] at h
  exact h

theorem count_clouds_skip_eq (grid : Finset Point) (hgrid : grid ⊆ box) :
    count_clouds_skip grid = numClouds grid := by
  have h := count_loop_spec grid hgrid (grow_cloud_skip grid FUEL)
    (growSpec_grow_cloud_skip grid hgrid) pointsList ∅ 0
    (fun p hp => mem_pointsList.mp hp) (Finset.empty_subset box)
    (empty_sat grid) (empty_count grid)
  rw [pointsList_toFinset, Finset.empty_union,
    Finset.inter_eq_right.mpr hgrid] at h
  exact h

theorem evalLoop_ok (program : List Instruction) (fuel : ℕ) (f : Point → Int) :
    ∀ (l : List Point) (cal : Int) (act : Finset Point),
      (∀ p ∈ l, cellValue program fuel p = .ok (f p)) →
      evalLoop program fuel l cal act =
        some (cal + (l.map f).sum, act ∪ (l.filter fun p => 0 < f p).toFinset) := by
  intro l
  induction l with
  | nil =>
    intro cal act _
    simp [evalLoop]
  | cons p rest ihl =>
    intro cal act hl
    have hp := hl p (List.mem_cons_self p rest)
    have hstep : evalLoop program fuel (p :: rest) cal act =
        evalLoop program fuel rest (cal + f p)
          (if 0 < f p then insert p act else act) := by
      rw [evalLoop, hp]
    rw [hstep, ihl _ _ (fun q hq => hl q (List.mem_cons_of_mem p hq))]
    congr 1
    refine Prod.ext ?_ ?_
    · dsimp only
      rw [List.map_cons, List.sum_cons]
      ring
    · dsimp only
      by_cases hfp : 0 < f p
      · rw [if_pos hfp]
        have hfilter : (p :: rest).filter (fun q => 0 < f q) =
            p :: rest.filter (fun q => 0 < f q) := by
          simp [List.filter_cons, hfp]
        rw [hfilter, List.toFinset_cons]
        ext q
        simp only [Finset.mem_union, Finset.mem_insert]
        tauto
      · rw [if_neg hfp]
        have hfilter : (p :: rest).filter (fun q => 0 < f q) =
            rest.filter (fun q => 0 < f q) := by
          simp [List.filter_cons, hfp]
        rw [hfilter]

/-- Helper form of the grid-evaluation phase: when every cell's run returns
normally with value `f p`, the phase returns the total over the box and the
set of strictly positive cells. -/
theorem evalGrid_ok (program : List Instruction) (fuel : ℕ) (f : Point → Int)
    (h : ∀ p ∈ box, cellValue program fuel p = .ok (f p)) :
    evalGrid program fuel =
      some (∑ p ∈ box, f p, box.filter fun p => 0 < f p) := by
  have hsum : (pointsList.map f).sum = ∑ p ∈ box, f p := by
    rw [← List.sum_toFinset f pointsList_nodup, pointsList_toFinset]
  have hfil : (pointsList.filter fun p => 0 < f p).toFinset =
      box.filter fun p => 0 < f p := by
    rw [List.toFinset_filter, pointsList_toFinset]
    simp
  rw [evalGrid, evalLoop_ok program fuel f pointsList 0 ∅
    (fun p hp => h p (mem_pointsList.mp hp)), zero_add, Finset.empty_union, hsum, hfil]

theorem fetch_eq_none_iff (program : List Instruction) (pc : Int) :
    fetch program pc = none ↔ (pc < 0 ∨ (program.length : Int) ≤ pc) := by
  rw [fetch]
  split_ifs with h
  · constructor
    · intro hc
      cases hc
    · intro hc
      exfalso
      omega
  · constructor
    · intro _
      omega
    · intro _
      rfl

theorem splitChars_ne_nil (cs : List Char) : splitChars cs ≠ [] := by
  cases cs with
  | nil => simp [splitChars]
  | cons c cs =>
    rw [splitChars]
    split_ifs
    · simp
    · cases h : splitChars cs <;> simp

theorem splitChars_append_space (cs ds : List Char) (h : ' ' ∉ cs) :
    splitChars (cs ++ ' ' :: ds) = cs :: splitChars ds := by
  induction cs with
  | nil => simp [splitChars]
  | cons c cs ih =>
    have hc : ¬c = ' ' := fun hc => h (hc ▸ List.mem_cons_self c cs)
    have hcs : ' ' ∉ cs := fun hm => h (List.mem_cons_of_mem c hm)
    rw [List.cons_append, splitChars, if_neg hc, ih hcs]

theorem decodeTokens_add (rest : List String) : decodeTokens ("add" :: rest) = some .add := by
  simp [decodeTokens]

theorem decodeTokens_ret (rest : List String) : decodeTokens ("ret" :: rest) = some .ret := by
  simp [decodeTokens]

theorem decodeTokens_push_x (t : String) (rest : List String) (h : asciiLower t = "x") :
    decodeTokens ("push" :: t :: rest) = some (.push .x) := by
  simp [decodeTokens, h]

theorem decodeTokens_push_y (t : String) (rest : List String) (h : asciiLower t = "y") :
    decodeTokens ("push" :: t :: rest) = some (.push .y) := by
  simp [decodeTokens, h]

theorem decodeTokens_push_z (t : String) (rest : List String) (h : asciiLower t = "z") :
    decodeTokens ("push" :: t :: rest) = some (.push .z) := by
  simp [decodeTokens, h]

theorem decodeTokens_push_num (t : String) (rest : List String) (n : Int)
    (hx : asciiLower t ≠ "x") (hy : asciiLower t ≠ "y") (hz : asciiLower t ≠ "z")
    (hp : parse_i32 t = some n) :
    decodeTokens ("push" :: t :: rest) = some (.push (.num n)) := by
  simp [decodeTokens, hx, hy, hz, hp]

theorem decodeTokens_jmpos (t : String) (rest : List String) (n : Int)
    (hp : parse_i32 t = some n) :
    decodeTokens ("jmpos" :: t :: rest) = some (.jmpos n) := by
  simp [decodeTokens, hp]

theorem decodeTokens_none_iff (op : String) (rest : List String) :
    decodeTokens (op :: rest) = none ↔
      (¬(op = "push" ∨ op = "add" ∨ op = "jmpos" ∨ op = "ret") ∨
       ((op = "push" ∨ op = "jmpos") ∧ rest = []) ∨
       (op = "jmpos" ∧ ∃ t tl, rest = t :: tl ∧ parse_i32 t = none) ∨
       (op = "push" ∧ ∃ t tl, rest = t :: tl ∧
         ¬(asciiLower t = "x" ∨ asciiLower t = "y" ∨ asciiLower t = "z") ∧
         parse_i32 t = none)) := by
  by_cases h1 : op = "push"
  · subst h1
    cases rest with
    | nil => simp [decodeTokens]
    | cons t tl =>
      by_cases hx : asciiLower t = "x"
      · simp [decodeTokens, hx]
      · by_cases hy : asciiLower t = "y"
        · simp [decodeTokens, hx, hy]
        · by_cases hz : asciiLower t = "z"
          · simp [decodeTokens, hx, hy, hz]
          · cases hp : parse_i32 t with
            | none => simp [decodeTokens, hx, hy, hz, hp]
            | some n => simp [decodeTokens, hx, hy, hz, hp]
  · by_cases h2 : op = "add"
    · subst h2
      simp [decodeTokens]
    · by_cases h3 : op = "jmpos"
      · subst h3
        cases rest with
        | nil => simp [decodeTokens, h1]
        | cons t tl =>
          cases hp : parse_i32 t with
          | none => simp [decodeTokens, h1, hp]
          | some n => simp [decodeTokens, h1, hp]
      · by_cases h4 : op = "ret"
        · subst h4
          simp [decodeTokens]
        · simp [decodeTokens, h1, h2, h3, h4]

theorem evalGrid_progZero : evalGrid progZero 2 = some (0, ∅) := by
  have h := evalGrid_ok progZero 2 (fun _ => 0) (fun p _ => rfl)
  simpa using h

theorem mainTrace_progZero :
    mainTrace progZero 2 =
      some [.gridPhaseDone, .printed ("Calibration number: " ++ toString (0 : Int)),
        .cloudPhaseDone, .printed ("Clouds: " ++ toString (count_clouds ∅))] := by
  rw [mainTrace, evalGrid_progZero]

theorem gridOne_subset : gridOne ⊆ box :=
  Finset.singleton_subset_iff.mpr (mem_box.mpr (by decide))

/-- C1: the cloud count reported by the cloud-counting phase equals the number
of maximal connected components, under 6-connectivity (the six `CARDINALS`
face offsets), of the set of active cells — for every possible active grid.
`compF grid p` is the connected component of `p`: the second conjunct shows it
contains exactly the cells reachable from `p` through active cells, so each
component is counted exactly once and nothing else is counted. -/
theorem C1_cloud_count_components (grid : Finset Point) (hgrid : grid ⊆ box) :
    count_clouds grid = (grid.image (compF grid)).card ∧
    ∀ p ∈ grid, ∀ q, q ∈ compF grid p ↔ Reach grid p q :=
  ⟨count_clouds_eq grid hgrid, fun p hp q => mem_compF hp⟩

theorem C1_witness :
    count_clouds gridOne = (Finset.image (compF gridOne) gridOne).card ∧
    ∀ p ∈ gridOne, ∀ q, q ∈ compF gridOne p ↔ Reach gridOne p q :=
  C1_cloud_count_components gridOne gridOne_subset

/-- C2: the grid evaluator visits each of the 27000 coordinates of `[0,30)³`
exactly once (the iteration list has no duplicates, has length 27000, and its
members are exactly the box); and whenever every cell's run returns normally
with value `f p`, the calibration number is the sum of `f` over the box and
the active grid holds exactly the cells with strictly positive value. -/
theorem C2_grid_evaluator :
    pointsList.Nodup ∧ pointsList.length = 27000 ∧
    (∀ p : Point, p ∈ pointsList ↔ p ∈ box) ∧
    ∀ (program : List Instruction) (fuel : ℕ) (f : Point → Int),
      (∀ p ∈ box, cellValue program fuel p = .ok (f p)) →
      evalGrid program fuel =
        some (∑ p ∈ box, f p, box.filter fun p => 0 < f p) :=
  ⟨pointsList_nodup, pointsList_length, fun _ => mem_pointsList, evalGrid_ok⟩

theorem C2_witness :
    (∀ p ∈ box, cellValue progZero 2 p = RunResult.ok ((fun _ : Point => (0 : Int)) p)) ∧
    evalGrid progZero 2 = some (∑ p ∈ box, (fun _ : Point => (0 : Int)) p,
      box.filter fun p => 0 < (fun _ : Point => (0 : Int)) p) :=
  ⟨fun p _ => rfl, C2_grid_evaluator.2.2.2 progZero 2 (fun _ => 0) (fun p _ => rfl)⟩

/-- C3: with `ConditionalJump offset` fetched and popped value `a ≥ 0`
(including `a = 0`), the net counter change is `1 + offset`; with `a < 0`, it
is `1`; `Push` and `Add` advance the counter by exactly `1`; `Return`
terminates immediately with its popped value, ignoring the counter. -/
theorem C3_step_semantics (program : List Instruction) (point : Point) (pc : Int)
    (stack : List Int) (a : Int) :
    (∀ off : Int, fetch program pc = some (.jmpos off) → 0 ≤ a →
      step program point pc (a :: stack) = .cont (pc + 1 + off) stack) ∧
    (∀ off : Int, fetch program pc = some (.jmpos off) → a < 0 →
      step program point pc (a :: stack) = .cont (pc + 1) stack) ∧
    (∀ v : Value, fetch program pc = some (.push v) →
      step program point pc stack = .cont (pc + 1) (Value.read v point :: stack)) ∧
    (∀ b : Int, fetch program pc = some .add →
      step program point pc (a :: b :: stack) = .cont (pc + 1) ((a + b) :: stack)) ∧
    (fetch program pc = some .ret → step program point pc (a :: stack) = .done a) ∧
    (∀ fuel : ℕ, fetch program pc = some .ret →
      run_program program point (fuel + 1) pc (a :: stack) = .ok a) := by
  refine ⟨?_, ?_, ?_, ?_, ?_, ?_⟩
  · intro off hf ha
    simp only [step, hf]
    rw [if_pos ha]
    congr 1
    ring
  · intro off hf ha
    simp only [step, hf]
    rw [if_neg (by omega)]
  · intro v hf
    simp only [step, hf]
  · intro b hf
    simp only [step, hf]
  · intro hf
    simp only [step, hf]
  · intro fuel hf
    simp only [run_program, step, hf]

theorem C3_witness :
    step [Instruction.jmpos 2] ⟨0, 0, 0⟩ 0 [0] = .cont (0 + 1 + 2) [] ∧
    step [Instruction.jmpos 2] ⟨0, 0, 0⟩ 0 [-1] = .cont (0 + 1) [] ∧
    step [Instruction.ret] ⟨0, 0, 0⟩ 0 [7] = .done 7 :=
  ⟨(C3_step_semantics [.jmpos 2] ⟨0, 0, 0⟩ 0 [] 0).1 2 (by decide) (by decide),
   (C3_step_semantics [.jmpos 2] ⟨0, 0, 0⟩ 0 [] (-1)).2.1 2 (by decide) (by decide),
   (C3_step_semantics [.ret] ⟨0, 0, 0⟩ 0 [] 7).2.2.2.2.1 (by decide)⟩

/-- C4: bounded point addition is a pure total function on all integer
inputs: it returns `none` (Rejected) exactly when some component of the
componentwise sum is `< 0` or `≥ 30`, and otherwise the componentwise sum;
in particular `(29,0,0)+(1,0,0)` is rejected and `(29,0,0)+(-1,0,0)` is
`(28,0,0)`. -/
theorem C4_bounded_addition :
    (∀ a b : Point,
      Point.add a b =
        if a.x + b.x < 0 ∨ 30 ≤ a.x + b.x ∨ a.y + b.y < 0 ∨ 30 ≤ a.y + b.y ∨
           a.z + b.z < 0 ∨ 30 ≤ a.z + b.z
        then none else some ⟨a.x + b.x, a.y + b.y, a.z + b.z⟩) ∧
    Point.add ⟨29, 0, 0⟩ ⟨1, 0, 0⟩ = none ∧
    Point.add ⟨29, 0, 0⟩ ⟨-1, 0, 0⟩ = some ⟨28, 0, 0⟩ := by
  refine ⟨?_, by decide, by decide⟩
  intro a b
  simp only [Point.add]
  split_ifs <;>
    first
    | rfl
    | (simp only [Option.some.injEq, Point.mk.injEq]; refine ⟨by omega, by omega, by omega⟩)
    | (exfalso; omega)

/-- C5: replacing the flood fill's rule of marking every touched in-range
neighbor considered (inactive ones included) by skip-if-active-only logic
(marking and recursing only into active neighbors) yields the same cloud
count on every active grid. -/
theorem C5_skip_equivalence (grid : Finset Point) (hgrid : grid ⊆ box) :
    count_clouds_skip grid = count_clouds grid :=
  (count_clouds_skip_eq grid hgrid).trans (count_clouds_eq grid hgrid).symm

theorem C5_witness : count_clouds_skip gridOne = count_clouds gridOne :=
  C5_skip_equivalence gridOne gridOne_subset

/-- C6: decoding of valid lines: the opcode token is matched case-sensitively
among `push`, `add`, `jmpos`, `ret`; `push`'s second token is matched
case-insensitively against `x`, `y`, `z`, any other second token being parsed
as a signed integer literal; `jmpos`'s second token is parsed as the signed
offset. The last conjuncts check representative whole lines through the
splitter. -/
theorem C6_decoder :
    (∀ rest : List String, decodeTokens ("add" :: rest) = some .add) ∧
    (∀ rest : List String, decodeTokens ("ret" :: rest) = some .ret) ∧
    (∀ (t : String) (rest : List String), asciiLower t = "x" →
      decodeTokens ("push" :: t :: rest) = some (.push .x)) ∧
    (∀ (t : String) (rest : List String), asciiLower t = "y" →
      decodeTokens ("push" :: t :: rest) = some (.push .y)) ∧
    (∀ (t : String) (rest : List String), asciiLower t = "z" →
      decodeTokens ("push" :: t :: rest) = some (.push .z)) ∧
    (∀ (t : String) (rest : List String) (n : Int), asciiLower t ≠ "x" →
      asciiLower t ≠ "y" → asciiLower t ≠ "z" → parse_i32 t = some n →
      decodeTokens ("push" :: t :: rest) = some (.push (.num n))) ∧
    (∀ (t : String) (rest : List String) (n : Int), parse_i32 t = some n →
      decodeTokens ("jmpos" :: t :: rest) = some (.jmpos n)) ∧
    (∀ s : String, Instruction.from_str s =
      decodeTokens ((splitChars s.data).map List.asString)) ∧
    Instruction.from_str "push x" = some (.push .x) ∧
    Instruction.from_str "push Y" = some (.push .y) ∧
    Instruction.from_str "push -7" = some (.push (.num (-7))) ∧
    Instruction.from_str "jmpos 3" = some (.jmpos 3) ∧
    Instruction.from_str "add" = some .add ∧
    Instruction.from_str "ret" = some .ret ∧
    Instruction.from_str "Add" = none ∧
    Instruction.from_str "PUSH x" = none :=
  ⟨decodeTokens_add, decodeTokens_ret, decodeTokens_push_x, decodeTokens_push_y,
   decodeTokens_push_z, decodeTokens_push_num, decodeTokens_jmpos, fun _ => rfl,
   by decide, by decide, by decide, by decide, by decide, by decide, by decide, by decide⟩

theorem C6_witness :
    decodeTokens ["push", "X"] = some (.push .x) ∧
    decodeTokens ["push", "-7"] = some (.push (.num (-7))) ∧
    decodeTokens ["jmpos", "3"] = some (.jmpos 3) := by
  obtain ⟨-, -, hx, -, -, hnum, hjm, -⟩ := C6_decoder
  exact ⟨hx "X" [] (by decide),
    hnum "-7" [] (-7) (by decide) (by decide) (by decide) (by decide),
    hjm "3" [] 3 (by decide)⟩

/-- C7: decoding a line fails (no silent default — failure is `none`) exactly
when the opcode token is unrecognized, a required second token is missing
(`push` or `jmpos`), or the second token fails signed-integer parsing
(`jmpos`, or `push` with a non-axis token). -/
theorem C7_decode_failure : ∀ s : String, ∃ (op : String) (rest : List String),
    (splitChars s.data).map List.asString = op :: rest ∧
    (Instruction.from_str s = none ↔
      (¬(op = "push" ∨ op = "add" ∨ op = "jmpos" ∨ op = "ret") ∨
       ((op = "push" ∨ op = "jmpos") ∧ rest = []) ∨
       (op = "jmpos" ∧ ∃ t tl, rest = t :: tl ∧ parse_i32 t = none) ∨
       (op = "push" ∧ ∃ t tl, rest = t :: tl ∧
         ¬(asciiLower t = "x" ∨ asciiLower t = "y" ∨ asciiLower t = "z") ∧
         parse_i32 t = none))) := by
  intro s
  cases hsplit : splitChars s.data with
  | nil => exact absurd hsplit (splitChars_ne_nil s.data)
  | cons t ts =>
    refine ⟨List.asString t, ts.map List.asString, rfl, ?_⟩
    have hfs : Instruction.from_str s =
        decodeTokens (List.asString t :: ts.map List.asString) := by
      rw [Instruction.from_str, hsplit]
      rfl
    rw [hfs]
    exact decodeTokens_none_iff (List.asString t) (ts.map List.asString)

/-- C8: fetching outside the instruction sequence and popping from an empty
(or, for `Add`, one-element) stack are fatal: the step faults and the run
aborts with `fault`; when a step returns `done v`, the run returns `ok v`
normally. -/
theorem C8_runtime_faults (program : List Instruction) (point : Point) (pc : Int)
    (stack : List Int) :
    (fetch program pc = none ↔ pc < 0 ∨ (program.length : Int) ≤ pc) ∧
    (fetch program pc = none → step program point pc stack = .fault) ∧
    (∀ off : Int, fetch program pc = some (.jmpos off) → stack = [] →
      step program point pc stack = .fault) ∧
    (fetch program pc = some .ret → stack = [] → step program point pc stack = .fault) ∧
    (fetch program pc = some .add → stack.length ≤ 1 →
      step program point pc stack = .fault) ∧
    (∀ fuel : ℕ, step program point pc stack = .fault →
      run_program program point (fuel + 1) pc stack = .fault) ∧
    (∀ (fuel : ℕ) (v : Int), step program point pc stack = .done v →
      run_program program point (fuel + 1) pc stack = .ok v) := by
  refine ⟨fetch_eq_none_iff program pc, ?_, ?_, ?_, ?_, ?_, ?_⟩
  · intro hf
    simp [step, hf]
  · intro off hf hs
    subst hs
    simp [step, hf]
  · intro hf hs
    subst hs
    simp [step, hf]
  · intro hf hs
    cases stack with
    | nil => simp [step, hf]
    | cons x rest =>
      cases rest with
      | nil => simp [step, hf]
      | cons y rest2 => simp at hs
  · intro fuel hstep
    simp [run_program, hstep]
  · intro fuel v hstep
    simp [run_program, hstep]

theorem C8_witness :
    step ([] : List Instruction) ⟨0, 0, 0⟩ 0 [] = .fault ∧
    step [Instruction.add] ⟨0, 0, 0⟩ 0 [1] = .fault ∧
    run_program [Instruction.add] ⟨0, 0, 0⟩ 1 0 [1] = .fault :=
  ⟨(C8_runtime_faults [] ⟨0, 0, 0⟩ 0 []).2.1 (by decide),
   (C8_runtime_faults [.add] ⟨0, 0, 0⟩ 0 [1]).2.2.2.2.1 (by decide) (by decide),
   (C8_runtime_faults [.add] ⟨0, 0, 0⟩ 0 [1]).2.2.2.2.2.1 0
     ((C8_runtime_faults [.add] ⟨0, 0, 0⟩ 0 [1]).2.2.2.2.1 (by decide) (by decide))⟩

/-- C9 (counterexample): on a run that succeeds, the calibration line is
printed before the cloud-counting phase completes, so it is not the case that
both lines are printed after both phases complete. -/
theorem C9_counterexample :
    ∃ tr : List Event, mainTrace progZero 2 = some tr ∧ ¬ PrintsAfterBothPhases tr := by
  refine ⟨_, mainTrace_progZero, ?_⟩
  intro hprop
  have h2 := hprop 1 ("Calibration number: " ++ toString (0 : Int)) rfl 2 (Or.inr rfl)
  omega

/-- C9 (amended): on a successful run the program prints exactly two lines,
`Calibration number: <integer>` first and `Clouds: <integer>` second; the
calibration line is printed after the grid-evaluation phase completes (but
before cloud counting), and the clouds line after the cloud-counting phase
completes. -/
theorem C9_amended_output (program : List Instruction) (fuel : ℕ) (cal : Int)
    (act : Finset Point) (h : evalGrid program fuel = some (cal, act)) :
    mainTrace program fuel =
      some [.gridPhaseDone, .printed ("Calibration number: " ++ toString cal),
        .cloudPhaseDone, .printed ("Clouds: " ++ toString (count_clouds act))] := by
  rw [mainTrace, h]

theorem C9_witness :
    mainTrace progZero 2 =
      some [Event.gridPhaseDone,
        Event.printed ("Calibration number: " ++ toString (0 : Int)),
        Event.cloudPhaseDone,
        Event.printed ("Clouds: " ++ toString (count_clouds ∅))] :=
  C9_amended_output progZero 2 0 ∅ evalGrid_progZero

/-- C10: surplus trailing tokens are silently ignored: `add <tokens>` and
`ret <tokens>` decode to `Add` and `Ret` for any trailing text, and
`push <n> <tokens>` / `jmpos <n> <tokens>` decode to the literal push / the
jump for any token `t` parsing to `n`, with no decode error for the surplus. -/
theorem C10_trailing_tokens :
    (∀ s : String, Instruction.from_str ("add " ++ s) = some .add) ∧
    (∀ s : String, Instruction.from_str ("ret " ++ s) = some .ret) ∧
    (∀ (t s : String) (n : Int), ' ' ∉ t.data →
      asciiLower t ≠ "x" → asciiLower t ≠ "y" → asciiLower t ≠ "z" →
      parse_i32 t = some n →
      Instruction.from_str ("push " ++ t ++ " " ++ s) = some (.push (.num n))) ∧
    (∀ (t s : String) (n : Int), ' ' ∉ t.data → parse_i32 t = some n →
      Instruction.from_str ("jmpos " ++ t ++ " " ++ s) = some (.jmpos n)) := by
  refine ⟨?_, ?_, ?_, ?_⟩
  · intro s
    have hdata : ("add " ++ s).data = "add".data ++ ' ' :: s.data := by
      rw [String.data_append]
      rfl
    rw [Instruction.from_str, hdata,
      splitChars_append_space "add".data s.data (by decide), List.map_cons]
    exact decodeTokens_add _
  · intro s
    have hdata : ("ret " ++ s).data = "ret".data ++ ' ' :: s.data := by
      rw [String.data_append]
      rfl
    rw [Instruction.from_str, hdata,
      splitChars_append_space "ret".data s.data (by decide), List.map_cons]
    exact decodeTokens_ret _
  · intro t s n ht hx hy hz hp
    have hdata : ("push " ++ t ++ " " ++ s).data =
        "push".data ++ ' ' :: (t.data ++ ' ' :: s.data) := by
      rw [String.data_append, String.data_append, String.data_append]
      simp
    rw [Instruction.from_str, hdata,
      splitChars_append_space "push".data (t.data ++ ' ' :: s.data) (by decide),
      splitChars_append_space t.data s.data ht, List.map_cons, List.map_cons]
    exact decodeTokens_push_num (List.asString t.data) _ n hx hy hz hp
  · intro t s n ht hp
    have hdata : ("jmpos " ++ t ++ " " ++ s).data =
        "jmpos".data ++ ' ' :: (t.data ++ ' ' :: s.data) := by
      rw [String.data_append, String.data_append, String.data_append]
      simp
    rw [Instruction.from_str, hdata,
      splitChars_append_space "jmpos".data (t.data ++ ' ' :: s.data) (by decide),
      splitChars_append_space t.data s.data ht, List.map_cons, List.map_cons]
    exact decodeTokens_jmpos (List.asString t.data) _ n hp

theorem C10_witness :
    Instruction.from_str "add junk" = some .add ∧
    Instruction.from_str "ret junk" = some .ret ∧
    Instruction.from_str "push 5 junk" = some (.push (.num 5)) ∧
    Instruction.from_str "jmpos -2 junk" = some (.jmpos (-2)) := by
  obtain ⟨h1, h2, h3, h4⟩ := C10_trailing_tokens
  exact ⟨h1 "junk", h2 "junk",
    h3 "5" "junk" 5 (by decide) (by decide) (by decide) (by decide) (by decide),
    h4 "-2" "junk" (-2) (by decide) (by decide)⟩
